import Mathlib

/-!
Verification development for the obsidian-rag suggestion engine.

The definitions below are a shallow embedding of the Python sources:
`src/suggest.py` (suggestion engine), `src/tags.py` and
`src/obsrag/rag/tags.py` (tag context builder, both copies identical),
and the escalation expression shared by `src/api.py` (`suggest`,
`process`) and `src/main.py` (`process_pdf`).

Modelling conventions:
- similarity scores are rationals (`ℚ`); Python's `round(x, 4)` is
  modelled by `round4`, rounding to the nearest multiple of `1/10000`
  (half away from zero upward, as Mathlib's `round`; no claim below
  exercises an exact-half tie, where Python's float rounding differs);
- Python dicts keyed by note name are insertion-ordered association
  lists, as Python guarantees; `seen[name] = v` keeps the original
  position of an existing key and appends a fresh one (`updateSeen`);
- Python `set`-of-string values are deduplicated `List String`
  (only membership in them is ever observable, and claims about their
  set nature are stated via `List.toFinset`); where the code iterates
  such a set (`for name in secondary_names`) the iteration order is
  a fixed enumeration, which the spec explicitly allows
  ("implementers may use any consistent set iteration");
- the external retriever / re-ranker are out of scope per the spec;
  the engine is modelled from the post-rerank hit list (`results`);
- a Python dict record with optional keys (candidate entries) is a
  structure with `Option` fields, `none` meaning the key is absent.
-/

namespace ObsRag

/-- One ingested document chunk, as consumed from `doc.metadata` in
`suggest.py` and `tags.py`: `note_name` (missing modelled as `""`,
exactly how `metadata.get("note_name", "")` behaves), `wikilinks` and
`backlinks`. -/
structure Doc where
  note_name : String
  wikilinks : List String
  backlinks : List String
deriving DecidableEq

/-- One retrieval hit (a node returned by the retriever / re-ranker),
as read in `suggest.py`: `node.metadata["note_name"]`,
`node.metadata["folder_name"]`, `node.score`. -/
structure Node where
  note_name : String
  folder_name : String
  score : ℚ
deriving DecidableEq

/-- Python's `round(x, 4)` on scores: round to 4 decimal places, in
integer arithmetic so that the kernel can evaluate it
(`round4_eq_round` below identifies it with rounding `q * 10000` to
the nearest integer): for `q = n/d` the nearest multiple of `1/10000`
is `⌊(20000 n + d) / (2 d)⌋ / 10000`. -/
def round4 (q : ℚ) : ℚ :=
  Rat.divInt (Int.fdiv (q.num * 20000 + q.den) (2 * (q.den : ℤ))) 10000

/-- `doc_metadata` lookup table of `suggest.py` lines 43-55: one entry
per nonempty note title occurring among the chunks, holding the union
of the chunks' wikilinks and backlinks.  Titles occurring in no chunk
(and the empty title) have no entry. -/
def doc_metadata (docs : List Doc) (name : String) :
    Option (List String × List String) :=
  if name ≠ "" ∧ docs.any (fun d => d.note_name == name) then
    some ((((docs.filter fun d => d.note_name == name).map
              (·.wikilinks)).flatten).dedup,
          (((docs.filter fun d => d.note_name == name).map
              (·.backlinks)).flatten).dedup)
  else none

/-- The value stored in `seen[name]` (`suggest.py` lines 71-77): title,
rounded score, folder, and the note's wikilinks/backlinks taken from
`doc_metadata` (empty when the title has no entry there). -/
structure SeenEntry where
  title : String
  score : ℚ
  folder : String
  wikilinks : List String
  backlinks : List String
deriving DecidableEq

/-- Python dict update `seen[name] = v`: replace in place when the key
exists (keeping its position), append otherwise. -/
def updateSeen (seen : List (String × SeenEntry)) (name : String)
    (v : SeenEntry) : List (String × SeenEntry) :=
  if seen.any (fun p => p.1 == name) then
    seen.map (fun p => if p.1 == name then (name, v) else p)
  else seen ++ [(name, v)]

/-- The entry built for a node at `suggest.py` lines 71-77. -/
def mkSeenEntry (docs : List Doc) (node : Node) : SeenEntry :=
  { title := node.note_name
    score := round4 node.score
    folder := node.folder_name
    wikilinks := ((doc_metadata docs node.note_name).map Prod.fst).getD []
    backlinks := ((doc_metadata docs node.note_name).map Prod.snd).getD [] }

/-- The second half of the guard at `suggest.py` line 69:
`name not in seen or node.score > seen[name]["score"]`.  Note the raw
incoming score is compared against the stored (already rounded)
score. -/
def keepNew (seen : List (String × SeenEntry)) (node : Node) : Bool :=
  match seen.lookup node.note_name with
  | none => true
  | some e => decide (e.score < node.score)

/-- One iteration of the dedup loop (`suggest.py` lines 67-77). -/
def dedupStep (docs : List Doc) (seen : List (String × SeenEntry))
    (node : Node) : List (String × SeenEntry) :=
  if node.note_name ≠ "" ∧ keepNew seen node then
    updateSeen seen node.note_name (mkSeenEntry docs node)
  else seen

/-- The full dedup pass over the hit list (`suggest.py` lines 66-77). -/
def dedup (docs : List Doc) (results : List Node) :
    List (String × SeenEntry) :=
  results.foldl (dedupStep docs) []

/-- `secondary_names` (`suggest.py` lines 80-86): union of all
wikilinks and backlinks of the primary candidates, minus the primary
titles themselves. -/
def secondaryNames (seen : List (String × SeenEntry)) : List String :=
  (((seen.map fun p => p.2.wikilinks ++ p.2.backlinks).flatten).dedup).filter
    fun n => decide (n ∉ seen.map Prod.fst)

/-- An output candidate dict.  `none` in a field means the Python dict
has no such key. -/
structure Entry where
  title : String
  score : Option ℚ
  folder : Option String
  wikilinks : Option (List String)
  backlinks : Option (List String)
  source : Option String
deriving DecidableEq

/-- A primary candidate appended to `suggested_links`
(`suggest.py` line 100): the seen entry verbatim — in particular it
carries no `source` key. -/
def linkEntry (e : SeenEntry) : Entry :=
  { title := e.title, score := some e.score, folder := some e.folder
    wikilinks := some e.wikilinks, backlinks := some e.backlinks
    source := none }

/-- A primary candidate appended to `suggested_tags`
(`suggest.py` lines 94-98): title, score and `source = "retrieval"`. -/
def tagEntry (e : SeenEntry) : Entry :=
  { title := e.title, score := some e.score, folder := none
    wikilinks := none, backlinks := none, source := some "retrieval" }

/-- A secondary candidate (`suggest.py` line 103): title and
`source = "graph"` only. -/
def graphEntry (name : String) : Entry :=
  { title := name, score := none, folder := none
    wikilinks := none, backlinks := none, source := some "graph" }

/-- The sort key relation of `suggest.py` line 92:
`sorted(seen.values(), key=lambda x: x["score"], reverse=True)`. -/
def byScoreDesc (a b : SeenEntry) : Prop := b.score ≤ a.score

instance : DecidableRel byScoreDesc :=
  fun a b => inferInstanceAs (Decidable (b.score ≤ a.score))

instance : IsTotal SeenEntry byScoreDesc :=
  ⟨fun a b => le_total b.score a.score⟩

instance : IsTrans SeenEntry byScoreDesc :=
  ⟨fun _ _ _ h1 h2 => le_trans h2 h1⟩

/-- The primary candidates in output order (`suggest.py` line 92). -/
def sortPrimaries (seen : List (String × SeenEntry)) : List SeenEntry :=
  List.insertionSort byScoreDesc (seen.map Prod.snd)

/-- The return value of `suggest_links_and_tags`. -/
structure SuggestResult where
  suggested_links : List Entry
  suggested_tags : List Entry
deriving DecidableEq

/-- `suggest_links_and_tags` (`suggest.py` lines 14-112), from the
post-rerank hit list.  The classification loop over sorted primaries
appends members of `tag_set` to `suggested_tags` and the rest to
`suggested_links`, preserving order — rendered as order-preserving
filters; the loop over `secondary_names` likewise. -/
def suggest_links_and_tags (results : List Node) (tag_set : Finset String)
    (docs : List Doc) : SuggestResult :=
  let seen := dedup docs results
  let primaries := sortPrimaries seen
  let secondary := secondaryNames seen
  { suggested_links :=
      ((primaries.filter fun e => decide (e.title ∉ tag_set)).map linkEntry)
        ++ ((secondary.filter fun n => decide (n ∉ tag_set)).map graphEntry)
    suggested_tags :=
      ((primaries.filter fun e => decide (e.title ∈ tag_set)).map tagEntry)
        ++ ((secondary.filter fun n => decide (n ∈ tag_set)).map graphEntry) }

/-- The expression
`result["suggested_links"][0]["score"] if result["suggested_links"] else 0`
(`api.py` line 115, `main.py` line 69).  `none` models the `KeyError`
raised when the first suggested link has no `"score"` key. -/
def top_score (links : List Entry) : Option ℚ :=
  match links with
  | [] => some 0
  | e :: _ => e.score

/-- The escalation decision of `api.py` lines 113-118 / `main.py`
lines 66-72: escalate when `len(retrieval_tags) < min_tags_threshold`
or `top_score < min_confidence_threshold`, where `retrieval_tags`
collects the titles of ALL entries of `suggested_tags`.  `none` models
the `KeyError` from `top_score`. -/
def should_escalate (r : SuggestResult) (min_tags_threshold : ℕ)
    (min_confidence_threshold : ℚ) : Option Bool :=
  (top_score r.suggested_links).map fun s =>
    decide (r.suggested_tags.length < min_tags_threshold)
      || decide (s < min_confidence_threshold)

/-- The reference extraction of `main.py` line 108 / `api.py` line 178:
`[link["title"] for link in suggested_links if link.get("source") == "retrieval"]`. -/
def references (links : List Entry) : List String :=
  (links.filter fun e => e.source == some "retrieval").map (·.title)

/-- The raw scores carried by the hits for a given note title, in hit
order. -/
def scoresOf (t : String) (results : List Node) : List ℚ :=
  (results.filter fun n => n.note_name == t).map (·.score)

/-- The set of note titles accumulated for one tag by
`build_tag_context` (`tags.py` lines 30-39): the nonempty note names of
chunks whose wikilinks or backlinks contain the tag, deduplicated (the
Python code accumulates them into a `set`). -/
def tagReferencingNotes (docs : List Doc) (t : String) : List String :=
  (((docs.filter fun d =>
      decide (d.note_name ≠ "" ∧ (t ∈ d.wikilinks ∨ t ∈ d.backlinks))).map
        (·.note_name)).dedup)

/-- `build_tag_context` (`tags.py` lines 20-42 and
`obsrag/rag/tags.py` lines 59-81, identical): one entry per tag of the
vocabulary whose referencing-note set is nonempty, holding that set
sorted. -/
def build_tag_context (docs : List Doc) (tag_set : List String) :
    List (String × List String) :=
  ((tag_set.map fun t =>
      (t, List.insertionSort (· ≤ ·) (tagReferencingNotes docs t))).filter
        fun p => decide (p.2 ≠ []))

/-- Following the spec's words (section 4.5): note title `name`
references tag `t` when some chunk of the (nonempty-titled) note lists
`t` among its wikilinks or backlinks. -/
def referencesTag (docs : List Doc) (name t : String) : Prop :=
  name ≠ "" ∧ ∃ d ∈ docs, d.note_name = name ∧
    (t ∈ d.wikilinks ∨ t ∈ d.backlinks)

instance (docs : List Doc) (name t : String) :
    Decidable (referencesTag docs name t) := by
  unfold referencesTag; infer_instance

/-- A JSON value, the result of a successful `json.loads`. -/
inductive Json where
  | null
  | bool (b : Bool)
  | num (q : ℚ)
  | str (s : String)
  | arr (elems : List Json)
  | obj (fields : List (String × Json))

/-- Following the spec's words (section 3, `ArbiterDecision`): an
object with `existing_tags` and `new_tags` arrays of strings and a
`reasoning` string.  The code declares no such type; this definition
exists only to compare the code's behaviour with the spec. -/
def specArbiterDecisionShape : Json → Bool
  | .obj fields =>
      (fields.lookup "existing_tags").elim false isStrArr
        && (fields.lookup "new_tags").elim false isStrArr
        && (fields.lookup "reasoning").elim false isStr
  | _ => false
where
  isStr : Json → Bool
    | .str _ => true
    | _ => false
  isStrArr : Json → Bool
    | .arr elems => elems.all isStr
    | _ => false

/-- The two kinds of exception that can escape `suggest_tags_via_llm`
(`suggest.py` lines 115-173): an exception raised by the external
`openai` call (transport), or `json.JSONDecodeError` raised by
`json.loads` on line 173 when the response body is not valid JSON. -/
inductive ArbiterCallError where
  | transport (message : String)
  | jsonDecode
deriving DecidableEq

/-- `suggest_tags_via_llm` (`suggest.py` lines 115-173), abstracted
over its external collaborators: the `openai` call either raises
(`Except.error`) or yields a response body, and `json.loads` of that
body is modelled by its outcome, `none` when the body is not valid
JSON.  The code propagates both failures and returns the parsed JSON
value as-is — line 173 is `return json.loads(...)`, with no validation
of the value's shape. -/
def suggest_tags_via_llm (response : Except String (Option Json)) :
    Except ArbiterCallError Json :=
  match response with
  | .error e => .error (.transport e)
  | .ok none => .error .jsonDecode
  | .ok (some j) => .ok j

/-! ### Arithmetic facts about `round4` -/

theorem round4_eq_round (q : ℚ) :
    round4 q = ((round (q * 10000) : ℤ) : ℚ) / 10000 := by
  have hd : (0:ℚ) < (q.den : ℚ) := by exact_mod_cast q.pos
  have hkey : q * 10000 + 1/2
      = (((q.num * 20000 + (q.den : ℤ)) : ℤ) : ℚ) / (((2 * q.den : ℕ)) : ℚ) := by
    conv_lhs => rw [← Rat.num_div_den q]
    push_cast
    field_simp
    ring
  rw [round_eq, hkey, Rat.floor_intCast_div_natCast, round4, Rat.divInt_eq_div,
    Int.fdiv_eq_ediv _ (by positivity)]
  norm_num

theorem round4_mono {a b : ℚ} (h : a ≤ b) : round4 a ≤ round4 b := by
  rw [round4_eq_round, round4_eq_round]
  have hr : round (a * 10000) ≤ round (b * 10000) := by
    rw [round_eq, round_eq]
    exact Int.floor_mono (by linarith)
  have hc : ((round (a * 10000) : ℤ) : ℚ) ≤ ((round (b * 10000) : ℤ) : ℚ) := by
    exact_mod_cast hr
  exact div_le_div_of_nonneg_right hc (by norm_num) |>.trans_eq rfl

theorem round4_idem (q : ℚ) : round4 (round4 q) = round4 q := by
  rw [round4_eq_round q, round4_eq_round]
  have h : ((round (q * 10000) : ℤ) : ℚ) / 10000 * 10000
      = ((round (q * 10000) : ℤ) : ℚ) := by
    field_simp
  rw [h, round_intCast]

/-! ### Association-list facts about `updateSeen` and `List.lookup` -/

theorem lookup_map_update (t : String) (v : SeenEntry) :
    ∀ seen : List (String × SeenEntry),
      (seen.map (fun p => if p.1 == t then (t, v) else p)).lookup t
        = (seen.lookup t).map (fun _ => v) := by
  intro seen
  induction seen with
  | nil => simp
  | cons p rest ih =>
    obtain ⟨k, b⟩ := p
    simp only [beq_iff_eq] at ih
    by_cases hp : k = t
    · simp [List.lookup_cons, hp]
    · simp [List.lookup_cons, hp, beq_eq_false_iff_ne.mpr hp,
        beq_eq_false_iff_ne.mpr (Ne.symm hp), ih]

theorem lookup_map_update_ne (t t' : String) (v : SeenEntry) (h : t' ≠ t) :
    ∀ seen : List (String × SeenEntry),
      (seen.map (fun p => if p.1 == t then (t, v) else p)).lookup t'
        = seen.lookup t' := by
  intro seen
  induction seen with
  | nil => simp
  | cons p rest ih =>
    obtain ⟨k, b⟩ := p
    simp only [beq_iff_eq] at ih
    by_cases hp : k = t
    · simp [List.lookup_cons, hp, beq_eq_false_iff_ne.mpr h, ih]
    · simp [List.lookup_cons, hp, beq_eq_false_iff_ne.mpr hp,
        beq_eq_false_iff_ne.mpr (Ne.symm hp), ih]

theorem any_key_eq_true_iff (seen : List (String × SeenEntry)) (t : String) :
    (seen.any fun p => p.1 == t) = true ↔ ∃ p ∈ seen, p.1 = t := by
  simp [List.any_eq_true]

theorem lookup_isSome_of_any (seen : List (String × SeenEntry)) (t : String)
    (h : (seen.any fun p => p.1 == t) = true) :
    ∃ e, seen.lookup t = some e := by
  have := List.lookup_isSome_iff.mpr (by
    obtain ⟨p, hp, he⟩ := (any_key_eq_true_iff seen t).mp h
    exact ⟨p, hp, beq_iff_eq.mpr he.symm⟩)
  exact Option.isSome_iff_exists.mp this

theorem lookup_eq_none_of_not_any (seen : List (String × SeenEntry))
    (t : String) (h : (seen.any fun p => p.1 == t) = false) :
    seen.lookup t = none := by
  rw [List.lookup_eq_none_iff]
  intro p hp
  have hne := List.any_eq_false.mp h p hp
  have hb : (p.1 == t) = false := by simpa using hne
  exact bne_iff_ne.mpr (Ne.symm (beq_eq_false_iff_ne.mp hb))

theorem lookup_updateSeen_self (seen : List (String × SeenEntry))
    (t : String) (v : SeenEntry) :
    (updateSeen seen t v).lookup t = some v := by
  rw [updateSeen]
  split
  · next h =>
    obtain ⟨e, he⟩ := lookup_isSome_of_any seen t h
    rw [lookup_map_update, he]
    rfl
  · next h =>
    rw [List.lookup_append,
      lookup_eq_none_of_not_any seen t (Bool.of_not_eq_true h)]
    simp

theorem lookup_updateSeen_ne (seen : List (String × SeenEntry))
    (t t' : String) (v : SeenEntry) (h : t' ≠ t) :
    (updateSeen seen t v).lookup t' = seen.lookup t' := by
  rw [updateSeen]
  split
  · exact lookup_map_update_ne t t' v h seen
  · rw [List.lookup_append]
    have h1 : ([(t, v)] : List (String × SeenEntry)).lookup t' = none := by
      simp [List.lookup_cons, beq_eq_false_iff_ne.mpr h]
    cases hl : seen.lookup t' <;> simp [h1]

theorem map_fst_updateSeen (seen : List (String × SeenEntry))
    (t : String) (v : SeenEntry) :
    (updateSeen seen t v).map Prod.fst = seen.map Prod.fst ∨
      ((updateSeen seen t v).map Prod.fst = seen.map Prod.fst ++ [t]
        ∧ t ∉ seen.map Prod.fst) := by
  rw [updateSeen]
  split
  · next h =>
    left
    rw [List.map_map]
    apply List.map_congr_left
    intro p _
    by_cases hp : p.1 = t
    · simp [Function.comp, hp]
    · simp [Function.comp, beq_eq_false_iff_ne.mpr hp]
  · next h =>
    right
    constructor
    · simp
    · intro hc
      obtain ⟨p, hp, hpt⟩ := List.mem_map.mp hc
      exact absurd ((any_key_eq_true_iff seen t).mpr ⟨p, hp, hpt⟩)
        (by simpa using h)

theorem mem_updateSeen (seen : List (String × SeenEntry))
    (t : String) (v : SeenEntry) (p : String × SeenEntry)
    (hp : p ∈ updateSeen seen t v) : p ∈ seen ∨ p = (t, v) := by
  rw [updateSeen] at hp
  split at hp
  · obtain ⟨q, hq, hqe⟩ := List.mem_map.mp hp
    by_cases hq1 : q.1 = t
    · right
      simpa [hq1] using hqe.symm
    · left
      rw [← hqe]
      simpa [beq_eq_false_iff_ne.mpr hq1] using hq
  · rcases List.mem_append.mp hp with h | h
    · exact Or.inl h
    · exact Or.inr (by simpa using h)

theorem lookup_mem :
    ∀ (seen : List (String × SeenEntry)) (t : String) (e : SeenEntry),
      seen.lookup t = some e → (t, e) ∈ seen := by
  intro seen
  induction seen with
  | nil => simp
  | cons p rest ih =>
    intro t e h
    obtain ⟨k, b⟩ := p
    rw [List.lookup_cons] at h
    cases hbeq : (t == k) with
    | true =>
      rw [hbeq] at h
      have hk : t = k := beq_iff_eq.mp hbeq
      have hbe : b = e := by simpa using h
      rw [List.mem_cons]
      exact Or.inl (by rw [hk, hbe])
    | false =>
      rw [hbeq] at h
      exact List.mem_cons_of_mem _ (ih t e h)

/-! ### Invariants of the dedup pass -/

theorem dedupStep_store (docs : List Doc) (seen : List (String × SeenEntry))
    (n : Node) (h1 : n.note_name ≠ "") (h2 : keepNew seen n = true) :
    dedupStep docs seen n = updateSeen seen n.note_name (mkSeenEntry docs n) := by
  simp [dedupStep, h1, h2]

theorem dedupStep_skip (docs : List Doc) (seen : List (String × SeenEntry))
    (n : Node) (h : n.note_name = "" ∨ keepNew seen n = false) :
    dedupStep docs seen n = seen := by
  rcases h with h | h <;> simp [dedupStep, h]

theorem grid_dedupStep (docs : List Doc) (seen : List (String × SeenEntry))
    (n : Node) (h : ∀ p ∈ seen, p.2.score = round4 p.2.score) :
    ∀ p ∈ dedupStep docs seen n, p.2.score = round4 p.2.score := by
  intro p hp
  rw [dedupStep] at hp
  split at hp
  · rcases mem_updateSeen _ _ _ _ hp with h1 | h1
    · exact h p h1
    · rw [h1]
      exact (round4_idem n.score).symm
  · exact h p hp

theorem title_dedupStep (docs : List Doc) (seen : List (String × SeenEntry))
    (n : Node) (h : ∀ p ∈ seen, p.2.title = p.1) :
    ∀ p ∈ dedupStep docs seen n, p.2.title = p.1 := by
  intro p hp
  rw [dedupStep] at hp
  split at hp
  · rcases mem_updateSeen _ _ _ _ hp with h1 | h1
    · exact h p h1
    · rw [h1]
      rfl
  · exact h p hp

theorem nodupKeys_dedupStep (docs : List Doc) (seen : List (String × SeenEntry))
    (n : Node) (h : (seen.map Prod.fst).Nodup) :
    ((dedupStep docs seen n).map Prod.fst).Nodup := by
  rw [dedupStep]
  split
  · rcases map_fst_updateSeen seen n.note_name (mkSeenEntry docs n) with
      heq | ⟨heq, hni⟩
    · rw [heq]
      exact h
    · rw [heq]
      simp [List.nodup_append, h, hni]
  · exact h

theorem grid_dedupFold (docs : List Doc) :
    ∀ (rs : List Node) (seen : List (String × SeenEntry)),
      (∀ p ∈ seen, p.2.score = round4 p.2.score) →
      ∀ p ∈ rs.foldl (dedupStep docs) seen, p.2.score = round4 p.2.score := by
  intro rs
  induction rs with
  | nil => exact fun seen h => by simpa using h
  | cons n rest ih =>
    intro seen h
    exact ih _ (grid_dedupStep docs seen n h)

theorem title_dedupFold (docs : List Doc) :
    ∀ (rs : List Node) (seen : List (String × SeenEntry)),
      (∀ p ∈ seen, p.2.title = p.1) →
      ∀ p ∈ rs.foldl (dedupStep docs) seen, p.2.title = p.1 := by
  intro rs
  induction rs with
  | nil => exact fun seen h => by simpa using h
  | cons n rest ih =>
    intro seen h
    exact ih _ (title_dedupStep docs seen n h)

theorem nodupKeys_dedupFold (docs : List Doc) :
    ∀ (rs : List Node) (seen : List (String × SeenEntry)),
      (seen.map Prod.fst).Nodup →
      ((rs.foldl (dedupStep docs) seen).map Prod.fst).Nodup := by
  intro rs
  induction rs with
  | nil => exact fun seen h => by simpa using h
  | cons n rest ih =>
    intro seen h
    exact ih _ (nodupKeys_dedupStep docs seen n h)

theorem grid_dedup (docs : List Doc) (results : List Node) :
    ∀ p ∈ dedup docs results, p.2.score = round4 p.2.score :=
  grid_dedupFold docs results [] (by simp)

theorem title_dedup (docs : List Doc) (results : List Node) :
    ∀ p ∈ dedup docs results, p.2.title = p.1 :=
  title_dedupFold docs results [] (by simp)

theorem nodupKeys_dedup (docs : List Doc) (results : List Node) :
    ((dedup docs results).map Prod.fst).Nodup :=
  nodupKeys_dedupFold docs results [] (by simp)

theorem keepNew_of_lookup_some (seen : List (String × SeenEntry)) (n : Node)
    (e0 : SeenEntry) (h0 : seen.lookup n.note_name = some e0) :
    keepNew seen n = decide (e0.score < n.score) := by
  rw [keepNew, h0]

theorem dedup_fold_score_mono (docs : List Doc) :
    ∀ (rs : List Node) (seen : List (String × SeenEntry)) (t : String)
      (e0 : SeenEntry),
      (∀ p ∈ seen, p.2.score = round4 p.2.score) →
      seen.lookup t = some e0 →
      ∃ e, (rs.foldl (dedupStep docs) seen).lookup t = some e ∧
        e0.score ≤ e.score := by
  intro rs
  induction rs with
  | nil =>
    intro seen t e0 _ h0
    exact ⟨e0, by simpa using h0, le_refl _⟩
  | cons n rest ih =>
    intro seen t e0 hg h0
    rw [List.foldl_cons]
    by_cases hname : n.note_name = t
    · subst hname
      by_cases hstore : n.note_name ≠ "" ∧ keepNew seen n = true
      · have hstep : dedupStep docs seen n =
            updateSeen seen n.note_name (mkSeenEntry docs n) :=
          dedupStep_store docs seen n hstore.1 hstore.2
        have hlk : (dedupStep docs seen n).lookup n.note_name
            = some (mkSeenEntry docs n) := by
          rw [hstep]
          exact lookup_updateSeen_self seen n.note_name _
        have hlt : e0.score < n.score := by
          have := keepNew_of_lookup_some seen n e0 h0 ▸ hstore.2
          exact of_decide_eq_true this
        have hle : e0.score ≤ (mkSeenEntry docs n).score := by
          have hgrid : e0.score = round4 e0.score :=
            hg (n.note_name, e0) (lookup_mem seen n.note_name e0 h0)
          calc e0.score = round4 e0.score := hgrid
            _ ≤ round4 n.score := round4_mono hlt.le
            _ = (mkSeenEntry docs n).score := rfl
        obtain ⟨e, he, hee⟩ := ih (dedupStep docs seen n) n.note_name
          (mkSeenEntry docs n) (grid_dedupStep docs seen n hg) hlk
        exact ⟨e, he, hle.trans hee⟩
      · have hstep : dedupStep docs seen n = seen := by
          apply dedupStep_skip
          rcases not_and_or.mp hstore with h | h
          · exact Or.inl (not_not.mp h)
          · exact Or.inr (Bool.not_eq_true _ ▸ h)
        rw [hstep]
        exact ih seen n.note_name e0 hg h0
    · have hlk : (dedupStep docs seen n).lookup t = seen.lookup t := by
        rw [dedupStep]
        split
        · exact lookup_updateSeen_ne seen n.note_name t _ (Ne.symm hname)
        · rfl
      obtain ⟨e, he, hee⟩ := ih (dedupStep docs seen n) t e0
        (grid_dedupStep docs seen n hg) (hlk ▸ h0)
      exact ⟨e, he, hee⟩

theorem dedup_fold_lookup_some (docs : List Doc) :
    ∀ (rs : List Node) (seen : List (String × SeenEntry)) (t : String)
      (e : SeenEntry), t ≠ "" →
      (∀ p ∈ seen, p.2.score = round4 p.2.score) →
      (rs.foldl (dedupStep docs) seen).lookup t = some e →
      (∀ m ∈ rs, m.note_name = t → round4 m.score ≤ e.score) ∧
      (seen.lookup t = some e ∨
        ∃ n ∈ rs, n.note_name = t ∧ e = mkSeenEntry docs n) := by
  intro rs
  induction rs with
  | nil =>
    intro seen t e ht hg h
    exact ⟨by simp, Or.inl (by simpa using h)⟩
  | cons n rest ih =>
    intro seen t e ht hg h
    rw [List.foldl_cons] at h
    have hg' := grid_dedupStep docs seen n hg
    obtain ⟨hub, hdisj⟩ := ih (dedupStep docs seen n) t e ht hg' h
    by_cases hname : n.note_name = t
    · subst hname
      by_cases hstore : n.note_name ≠ "" ∧ keepNew seen n = true
      · have hstep := dedupStep_store docs seen n hstore.1 hstore.2
        have hlk : (dedupStep docs seen n).lookup n.note_name
            = some (mkSeenEntry docs n) := by
          rw [hstep]
          exact lookup_updateSeen_self _ _ _
        obtain ⟨e1, he1, hle1⟩ :=
          dedup_fold_score_mono docs rest _ _ _ hg' hlk
        rw [h] at he1
        have hee : (mkSeenEntry docs n).score ≤ e.score :=
          (Option.some.inj he1) ▸ hle1
        have hmk : round4 n.score ≤ e.score := hee
        refine ⟨?_, ?_⟩
        · intro m hm hmt
          rcases List.mem_cons.mp hm with rfl | hm'
          · exact hmk
          · exact hub m hm' hmt
        · rcases hdisj with hseen' | ⟨n', hn', hnt, hne⟩
          · right
            refine ⟨n, List.mem_cons_self _ _, rfl, ?_⟩
            rw [hlk] at hseen'
            exact (Option.some.inj hseen').symm
          · exact Or.inr ⟨n', List.mem_cons_of_mem _ hn', hnt, hne⟩
      · have hkfalse : keepNew seen n = false := by
          rcases not_and_or.mp hstore with hx | hx
          · exact absurd (not_not.mp hx) ht
          · exact Bool.not_eq_true _ ▸ hx
        have hstep : dedupStep docs seen n = seen :=
          dedupStep_skip docs seen n (Or.inr hkfalse)
        rw [hstep] at h hdisj
        obtain ⟨e0, he0, hnlt⟩ :
            ∃ e0, seen.lookup n.note_name = some e0 ∧
              ¬(e0.score < n.score) := by
          unfold keepNew at hkfalse
          cases hl : seen.lookup n.note_name with
          | none =>
            rw [hl] at hkfalse
            simp at hkfalse
          | some e0 =>
            rw [hl] at hkfalse
            exact ⟨e0, rfl, of_decide_eq_false hkfalse⟩
        obtain ⟨e1, he1, hle1⟩ :=
          dedup_fold_score_mono docs rest seen _ e0 hg he0
        rw [h] at he1
        have hgrid0 : e0.score = round4 e0.score :=
          hg _ (lookup_mem _ _ _ he0)
        have hmk : round4 n.score ≤ e.score :=
          calc round4 n.score ≤ round4 e0.score := round4_mono (not_lt.mp hnlt)
            _ = e0.score := hgrid0.symm
            _ ≤ e1.score := hle1
            _ = e.score := by rw [Option.some.inj he1]
        refine ⟨?_, hdisj.imp_right fun ⟨n', hn', hnt, hne⟩ =>
          ⟨n', List.mem_cons_of_mem _ hn', hnt, hne⟩⟩
        intro m hm hmt
        rcases List.mem_cons.mp hm with rfl | hm'
        · exact hmk
        · exact hub m hm' hmt
    · have hlk : (dedupStep docs seen n).lookup t = seen.lookup t := by
        rw [dedupStep]
        split
        · exact lookup_updateSeen_ne seen n.note_name t _ (Ne.symm hname)
        · rfl
      refine ⟨?_, ?_⟩
      · intro m hm hmt
        rcases List.mem_cons.mp hm with rfl | hm'
        · exact absurd hmt hname
        · exact hub m hm' hmt
      · rcases hdisj with hseen' | ⟨n', hn', hnt, hne⟩
        · exact Or.inl (hlk ▸ hseen')
        · exact Or.inr ⟨n', List.mem_cons_of_mem _ hn', hnt, hne⟩

theorem dedup_fold_lookup_none (docs : List Doc) :
    ∀ (rs : List Node) (seen : List (String × SeenEntry)) (t : String),
      (rs.foldl (dedupStep docs) seen).lookup t = none ↔
        (seen.lookup t = none ∧ (t = "" ∨ ∀ n ∈ rs, n.note_name ≠ t)) := by
  intro rs
  induction rs with
  | nil =>
    intro seen t
    simp
  | cons n rest ih =>
    intro seen t
    rw [List.foldl_cons, ih]
    by_cases ht : t = ""
    · subst ht
      have hlk : (dedupStep docs seen n).lookup "" = seen.lookup "" := by
        rw [dedupStep]
        split
        · next hc => exact lookup_updateSeen_ne seen n.note_name "" _ (Ne.symm hc.1)
        · rfl
      simp [hlk]
    · by_cases hname : n.note_name = t
      · subst hname
        constructor
        · rintro ⟨h1, _⟩
          by_cases hk : keepNew seen n = true
          · rw [dedupStep_store docs seen n ht hk,
              lookup_updateSeen_self] at h1
            cases h1
          · have hkf : keepNew seen n = false := Bool.not_eq_true _ ▸ hk
            rw [dedupStep_skip docs seen n (Or.inr hkf)] at h1
            have : keepNew seen n = true := by rw [keepNew, h1]
            exact absurd this hk
        · rintro ⟨h1, h2⟩
          rcases h2 with h2 | h2
          · exact absurd h2 ht
          · exact absurd rfl (h2 n (List.mem_cons_self _ _))
      · have hlk : (dedupStep docs seen n).lookup t = seen.lookup t := by
          rw [dedupStep]
          split
          · exact lookup_updateSeen_ne seen n.note_name t _ (Ne.symm hname)
          · rfl
        rw [hlk]
        constructor
        · rintro ⟨h1, h2⟩
          refine ⟨h1, ?_⟩
          rcases h2 with h2 | h2
          · exact Or.inl h2
          · refine Or.inr fun m hm => ?_
            rcases List.mem_cons.mp hm with rfl | hm'
            · exact hname
            · exact h2 m hm'
        · rintro ⟨h1, h2⟩
          refine ⟨h1, ?_⟩
          rcases h2 with h2 | h2
          · exact Or.inl h2
          · exact Or.inr fun m hm => h2 m (List.mem_cons_of_mem _ hm)

theorem lookup_dedup_none_iff (docs : List Doc) (results : List Node)
    (t : String) :
    (dedup docs results).lookup t = none ↔
      (t = "" ∨ ∀ n ∈ results, n.note_name ≠ t) := by
  rw [dedup, dedup_fold_lookup_none]
  simp

theorem lookup_dedup_some (docs : List Doc) (results : List Node)
    (t : String) (e : SeenEntry) (ht : t ≠ "")
    (h : (dedup docs results).lookup t = some e) :
    (∀ m ∈ results, m.note_name = t → round4 m.score ≤ e.score) ∧
      ∃ n ∈ results, n.note_name = t ∧ e = mkSeenEntry docs n := by
  obtain ⟨hub, hdisj⟩ :=
    dedup_fold_lookup_some docs results [] t e ht (by simp) h
  rcases hdisj with h' | h'
  · simp at h'
  · exact ⟨hub, h'⟩

theorem lookup_dedup_exists (docs : List Doc) (results : List Node)
    (n : Node) (hn : n ∈ results) (ht : n.note_name ≠ "") :
    ∃ e, (dedup docs results).lookup n.note_name = some e := by
  cases hl : (dedup docs results).lookup n.note_name with
  | none =>
    rcases (lookup_dedup_none_iff docs results n.note_name).mp hl with h | h
    · exact absurd h ht
    · exact absurd rfl (h n hn)
  | some e => exact ⟨e, rfl⟩

theorem lookup_eq_some_of_mem_nodup :
    ∀ (l : List (String × SeenEntry)), (l.map Prod.fst).Nodup →
      ∀ (t : String) (e : SeenEntry), (t, e) ∈ l → l.lookup t = some e := by
  intro l
  induction l with
  | nil => simp
  | cons p rest ih =>
    intro hnd t e hm
    obtain ⟨k, b⟩ := p
    simp only [List.map_cons, List.nodup_cons] at hnd
    rcases List.mem_cons.mp hm with heq | hm'
    · obtain ⟨rfl, rfl⟩ := Prod.mk.injEq _ _ _ _ ▸ heq
      exact List.lookup_cons_self
    · have htk : k ≠ t := fun hc =>
        hnd.1 (hc ▸ List.mem_map.mpr ⟨(t, e), hm', rfl⟩)
      rw [List.lookup_cons]
      have hb : (t == k) = false := beq_eq_false_iff_ne.mpr (Ne.symm htk)
      rw [hb]
      exact ih hnd.2 t e hm'

theorem mem_dedup_iff_lookup (docs : List Doc) (results : List Node)
    (t : String) (e : SeenEntry) :
    (t, e) ∈ dedup docs results ↔
      (dedup docs results).lookup t = some e := by
  constructor
  · exact lookup_eq_some_of_mem_nodup _ (nodupKeys_dedup docs results) t e
  · exact lookup_mem _ t e

/-! ### Membership in the engine output -/

theorem mem_sortPrimaries (seen : List (String × SeenEntry)) (se : SeenEntry) :
    se ∈ sortPrimaries seen ↔ ∃ p ∈ seen, p.2 = se := by
  rw [sortPrimaries, (List.perm_insertionSort byScoreDesc _).mem_iff]
  simp

theorem mem_secondaryNames_iff (seen : List (String × SeenEntry)) (n : String) :
    n ∈ secondaryNames seen ↔
      ((∃ p ∈ seen, n ∈ p.2.wikilinks ∨ n ∈ p.2.backlinks) ∧
        n ∉ seen.map Prod.fst) := by
  rw [secondaryNames]
  simp only [List.mem_filter, List.mem_dedup, List.mem_flatten, List.mem_map,
    decide_eq_true_eq]
  constructor
  · rintro ⟨⟨l, ⟨p, hp, rfl⟩, hnl⟩, hnk⟩
    exact ⟨⟨p, hp, List.mem_append.mp hnl⟩, hnk⟩
  · rintro ⟨⟨p, hp, hnl⟩, hnk⟩
    exact ⟨⟨p.2.wikilinks ++ p.2.backlinks, ⟨p, hp, rfl⟩,
      List.mem_append.mpr hnl⟩, hnk⟩

theorem mem_suggest_links_iff (results : List Node) (tag_set : Finset String)
    (docs : List Doc) (e : Entry) :
    e ∈ (suggest_links_and_tags results tag_set docs).suggested_links ↔
      ((∃ se ∈ sortPrimaries (dedup docs results),
          se.title ∉ tag_set ∧ e = linkEntry se) ∨
        (∃ n ∈ secondaryNames (dedup docs results),
          n ∉ tag_set ∧ e = graphEntry n)) := by
  rw [suggest_links_and_tags]
  simp only [List.mem_append, List.mem_map, List.mem_filter,
    decide_eq_true_eq]
  constructor
  · rintro (⟨se, ⟨hse, hnt⟩, rfl⟩ | ⟨n, ⟨hn, hnt⟩, rfl⟩)
    · exact Or.inl ⟨se, hse, hnt, rfl⟩
    · exact Or.inr ⟨n, hn, hnt, rfl⟩
  · rintro (⟨se, hse, hnt, rfl⟩ | ⟨n, hn, hnt, rfl⟩)
    · exact Or.inl ⟨se, ⟨hse, hnt⟩, rfl⟩
    · exact Or.inr ⟨n, ⟨hn, hnt⟩, rfl⟩

theorem mem_suggest_tags_iff (results : List Node) (tag_set : Finset String)
    (docs : List Doc) (e : Entry) :
    e ∈ (suggest_links_and_tags results tag_set docs).suggested_tags ↔
      ((∃ se ∈ sortPrimaries (dedup docs results),
          se.title ∈ tag_set ∧ e = tagEntry se) ∨
        (∃ n ∈ secondaryNames (dedup docs results),
          n ∈ tag_set ∧ e = graphEntry n)) := by
  rw [suggest_links_and_tags]
  simp only [List.mem_append, List.mem_map, List.mem_filter,
    decide_eq_true_eq]
  constructor
  · rintro (⟨se, ⟨hse, hnt⟩, rfl⟩ | ⟨n, ⟨hn, hnt⟩, rfl⟩)
    · exact Or.inl ⟨se, hse, hnt, rfl⟩
    · exact Or.inr ⟨n, hn, hnt, rfl⟩
  · rintro (⟨se, hse, hnt, rfl⟩ | ⟨n, hn, hnt, rfl⟩)
    · exact Or.inl ⟨se, ⟨hse, hnt⟩, rfl⟩
    · exact Or.inr ⟨n, ⟨hn, hnt⟩, rfl⟩

/-! ### Facts about `List.foldl max` -/

theorem foldl_max_mem (ss : List ℚ) :
    ∀ s : ℚ, ss.foldl max s = s ∨ ss.foldl max s ∈ ss := by
  induction ss with
  | nil => exact fun s => Or.inl rfl
  | cons a ss ih =>
    intro s
    rw [List.foldl_cons]
    rcases ih (max s a) with h | h
    · rcases max_choice s a with hm | hm
      · exact Or.inl (by rw [h, hm])
      · exact Or.inr (by rw [h, hm]; exact List.mem_cons_self _ _)
    · exact Or.inr (List.mem_cons_of_mem _ h)

theorem le_foldl_max (ss : List ℚ) :
    ∀ s : ℚ, s ≤ ss.foldl max s ∧ ∀ x ∈ ss, x ≤ ss.foldl max s := by
  induction ss with
  | nil => exact fun s => ⟨le_refl s, by simp⟩
  | cons a ss ih =>
    intro s
    rw [List.foldl_cons]
    obtain ⟨h1, h2⟩ := ih (max s a)
    refine ⟨(le_max_left s a).trans h1, ?_⟩
    intro x hx
    rcases List.mem_cons.mp hx with rfl | hx'
    · exact (le_max_right s x).trans h1
    · exact h2 x hx'

theorem mem_scoresOf_iff (t : String) (results : List Node) (x : ℚ) :
    x ∈ scoresOf t results ↔
      ∃ m ∈ results, m.note_name = t ∧ m.score = x := by
  rw [scoresOf]
  simp only [List.mem_map, List.mem_filter, beq_iff_eq]
  constructor
  · rintro ⟨m, ⟨hm, ht⟩, hs⟩
    exact ⟨m, hm, ht, hs⟩
  · rintro ⟨m, hm, ht, hs⟩
    exact ⟨m, ⟨hm, ht⟩, hs⟩

/-! ### Claim C4 -/

/-- Claim C4: for every input, no title that occurs among the primary
(retrieval-sourced) candidates of a `suggest_links_and_tags` call also
occurs in the same call's output as a secondary graph-sourced
candidate. -/
theorem c4_graph_expansion_exclusivity (results : List Node)
    (tag_set : Finset String) (docs : List Doc) (e : Entry)
    (he : e ∈ (suggest_links_and_tags results tag_set docs).suggested_links ++
      (suggest_links_and_tags results tag_set docs).suggested_tags)
    (hsrc : e.source = some "graph") :
    e.title ∉ (dedup docs results).map Prod.fst := by
  rcases List.mem_append.mp he with h | h
  · rcases (mem_suggest_links_iff results tag_set docs e).mp h with
      ⟨se, _, _, rfl⟩ | ⟨n, hn, _, rfl⟩
    · cases hsrc
    · exact ((mem_secondaryNames_iff _ _).mp hn).2
  · rcases (mem_suggest_tags_iff results tag_set docs e).mp h with
      ⟨se, _, _, rfl⟩ | ⟨n, hn, _, rfl⟩
    · exact absurd (Option.some.inj hsrc) (by decide)
    · exact ((mem_secondaryNames_iff _ _).mp hn).2

theorem c4_witness :
    ("B" : String) ∉
      (dedup [⟨"A", ["B"], []⟩] [⟨"A", "f", mkRat 9 10⟩]).map Prod.fst :=
  c4_graph_expansion_exclusivity [⟨"A", "f", mkRat 9 10⟩] ∅
    [⟨"A", ["B"], []⟩] (graphEntry "B") (by decide) rfl

/-! ### Claim C3 -/

/-- Claim C3: every candidate title produced by
`suggest_links_and_tags` appears in exactly one of `suggested_links`
and `suggested_tags`, membership decided solely by whether the title
is in the tag vocabulary; the two lists share no title. -/
theorem c3_classification_partition (results : List Node)
    (tag_set : Finset String) (docs : List Doc) (t : String) :
    ((∃ e ∈ (suggest_links_and_tags results tag_set docs).suggested_links,
        e.title = t) → t ∉ tag_set) ∧
    ((∃ e ∈ (suggest_links_and_tags results tag_set docs).suggested_tags,
        e.title = t) → t ∈ tag_set) ∧
    ¬((∃ e ∈ (suggest_links_and_tags results tag_set docs).suggested_links,
        e.title = t) ∧
      (∃ e ∈ (suggest_links_and_tags results tag_set docs).suggested_tags,
        e.title = t)) := by
  have hlink : (∃ e ∈ (suggest_links_and_tags results tag_set
      docs).suggested_links, e.title = t) → t ∉ tag_set := by
    rintro ⟨e, he, rfl⟩
    rcases (mem_suggest_links_iff results tag_set docs e).mp he with
      ⟨se, _, hnt, rfl⟩ | ⟨n, _, hnt, rfl⟩
    · exact hnt
    · exact hnt
  have htag : (∃ e ∈ (suggest_links_and_tags results tag_set
      docs).suggested_tags, e.title = t) → t ∈ tag_set := by
    rintro ⟨e, he, rfl⟩
    rcases (mem_suggest_tags_iff results tag_set docs e).mp he with
      ⟨se, _, hnt, rfl⟩ | ⟨n, _, hnt, rfl⟩
    · exact hnt
    · exact hnt
  exact ⟨hlink, htag, fun ⟨h1, h2⟩ => absurd (htag h2) (hlink h1)⟩

theorem c3_witness :
    ("deep-learning" : String) ∈ ({"deep-learning"} : Finset String) :=
  (c3_classification_partition [⟨"deep-learning", "f", mkRat 9 10⟩]
    {"deep-learning"} [] "deep-learning").2.1
    ⟨tagEntry ⟨"deep-learning", mkRat 9 10, "f", [], []⟩, by decide, rfl⟩

/-! ### Claim C6 (code bug) -/

/-- Claim C6 is contradicted by the code: at the concrete input below
the primary link candidate (the scenario-A shaped hit "CNN Basics",
score 0.82, not in the vocabulary) is emitted WITHOUT any source
marker (`source = none`, i.e. the Python dict has no "source" key),
while the claim and spec require `source = "retrieval"` on every
primary candidate.  Consequently the reference extraction of
`main.py` line 108 / `api.py` line 178, which filters suggested links
on `source == "retrieval"`, matches nothing. -/
theorem c6_primary_link_source_missing :
    ((suggest_links_and_tags [⟨"CNN Basics", "f", mkRat 82 100⟩] ∅
        [⟨"CNN Basics", ["Gradient Descent"], []⟩]).suggested_links.map
          (·.source) = [none, some "graph"]) ∧
    ((suggest_links_and_tags [⟨"CNN Basics", "f", mkRat 82 100⟩] ∅
        [⟨"CNN Basics", ["Gradient Descent"], []⟩]).suggested_links.map
          (fun e => e.score.isSome) = [true, false]) ∧
    references (suggest_links_and_tags [⟨"CNN Basics", "f", mkRat 82 100⟩] ∅
        [⟨"CNN Basics", ["Gradient Descent"], []⟩]).suggested_links = [] := by
  decide

/-! ### Claim C2 (corrected) -/

/-- Claim C2 fails on the code in two ways, both witnessed here.
First input: the only hit is a vocabulary title whose note links to a
non-vocabulary name, so `suggested_links` starts with a scoreless
graph entry and the escalation expression fails (`KeyError`, modelled
`none`) — the claim says the decision is defined for every suggestion
result.  Second input: the three suggested tags are all graph-sourced
(zero retrieval-sourced tags) and the decision is `false` with
`min_tags_threshold = 3` — the claim says counting retrieval-sourced
tag titles alone would force `true`. -/
theorem c2_counterexample :
    (should_escalate (suggest_links_and_tags [⟨"t1", "f", mkRat 9 10⟩]
      {"t1"} [⟨"t1", ["B"], []⟩]) 3 (mkRat 1 2) = none) ∧
    (should_escalate (suggest_links_and_tags [⟨"n", "f", mkRat 9 10⟩]
      {"t1", "t2", "t3"} [⟨"n", ["t1", "t2", "t3"], []⟩]) 3 0 = some false) ∧
    (((suggest_links_and_tags [⟨"n", "f", mkRat 9 10⟩]
      {"t1", "t2", "t3"} [⟨"n", ["t1", "t2", "t3"], []⟩]).suggested_tags.filter
        (fun e => e.source == some "retrieval")).length = 0) ∧
    ((0 : ℕ) < 3) := by
  decide

/-- Claim C2 (amended): the escalation decision counts the titles of
ALL entries of `suggested_tags` (graph-sourced included); the top
score is the `score` field of the first suggested link, or `0` when
`suggested_links` is empty; when the first suggested link carries no
score (a graph-sourced head) the computation fails with a `KeyError`
(modelled `none`); whenever the top score is defined, the decision is
`true` iff the tag count is below `min_tags_threshold` or the top
score is below `min_confidence_threshold`. -/
theorem c2_escalation_amended (r : SuggestResult) (m : ℕ) (c : ℚ) :
    (∀ s, top_score r.suggested_links = some s →
      (should_escalate r m c = some true ↔
        (r.suggested_tags.length < m ∨ s < c))) ∧
    (should_escalate r m c = none ↔
      ∃ e rest, r.suggested_links = e :: rest ∧ e.score = none) ∧
    (r.suggested_links = [] → top_score r.suggested_links = some 0) ∧
    (∀ e rest, r.suggested_links = e :: rest →
      top_score r.suggested_links = e.score) := by
  refine ⟨?_, ?_, ?_, ?_⟩
  · intro s hs
    rw [should_escalate, hs]
    simp [Option.map_some]
  · rw [should_escalate]
    cases hl : r.suggested_links with
    | nil =>
      rw [top_score]
      constructor
      · intro h
        cases h
      · rintro ⟨e', rest', heq, _⟩
        cases heq
    | cons e rest =>
      rw [top_score]
      cases hsc : e.score with
      | none =>
        exact iff_of_true rfl ⟨e, rest, rfl, hsc⟩
      | some s =>
        constructor
        · intro h
          exact Option.noConfusion h
        · rintro ⟨e', rest', heq, hsc'⟩
          injection heq with h1 h2
          rw [← h1, hsc] at hsc'
          exact Option.noConfusion hsc'
  · intro h
    rw [h, top_score]
  · intro e rest h
    rw [h, top_score]

theorem c2_witness :
    should_escalate ⟨[], []⟩ 3 0 = some true :=
  ((c2_escalation_amended ⟨[], []⟩ 3 0).1 0 rfl).mpr (Or.inl (by decide))

/-! ### Claim C9 (corrected) -/

/-- Claim C9 fails on the code: a response body that is VALID JSON of
the wrong shape (here `{"hello": 1}`, which is not an
`ArbiterDecision`) is returned as a substitute result, with no error
surfaced — `suggest_tags_via_llm` validates only JSON syntax
(`json.loads`), never the `ArbiterDecision` shape. -/
theorem c9_counterexample :
    (suggest_tags_via_llm (.ok (some (Json.obj [("hello", Json.num 1)])))
      = .ok (Json.obj [("hello", Json.num 1)])) ∧
    specArbiterDecisionShape (Json.obj [("hello", Json.num 1)]) = false :=
  ⟨rfl, rfl⟩

/-- Claim C9 (amended): `suggest_tags_via_llm` surfaces a parsing
error exactly when the arbiter's response is not syntactically valid
JSON; that error is distinct from a transport failure of the external
call, which is propagated as such; any syntactically valid JSON value
is returned as-is without shape validation.  The retrieval-layer
result computed by the caller is untouched in every case (the
function neither reads nor writes it beyond prompt construction). -/
theorem c9_arbiter_errors_amended (e : String) (j : Json) :
    (suggest_tags_via_llm (.error e) = .error (.transport e)) ∧
    (suggest_tags_via_llm (.ok none) = .error .jsonDecode) ∧
    (suggest_tags_via_llm (.ok (some j)) = .ok j) ∧
    (ArbiterCallError.transport e ≠ .jsonDecode) := by
  refine ⟨rfl, rfl, rfl, ?_⟩
  intro h
  cases h

theorem c9_witness :
    (suggest_tags_via_llm (.ok none) = .error .jsonDecode) ∧
    (ArbiterCallError.transport "boom" ≠ .jsonDecode) :=
  ⟨(c9_arbiter_errors_amended "boom" Json.null).2.1,
    (c9_arbiter_errors_amended "boom" Json.null).2.2.2⟩

/-! ### Claim C5 -/

/-- Claim C5: in each of the two output lists of
`suggest_links_and_tags`, all primary (score-carrying,
retrieval-sourced) entries precede all secondary (graph-sourced)
entries, and the primary entries are ordered by score descending. -/
theorem c5_output_ordering (results : List Node) (tag_set : Finset String)
    (docs : List Doc) :
    (∃ p q, (suggest_links_and_tags results tag_set docs).suggested_links
        = p ++ q ∧
      (∀ e ∈ p, e.score.isSome = true ∧ e.source = none) ∧
      (∀ e ∈ q, e.score = none ∧ e.source = some "graph") ∧
      p.Pairwise (fun e1 e2 => ∀ x y,
        e1.score = some x → e2.score = some y → y ≤ x)) ∧
    (∃ p q, (suggest_links_and_tags results tag_set docs).suggested_tags
        = p ++ q ∧
      (∀ e ∈ p, e.score.isSome = true ∧ e.source = some "retrieval") ∧
      (∀ e ∈ q, e.score = none ∧ e.source = some "graph") ∧
      p.Pairwise (fun e1 e2 => ∀ x y,
        e1.score = some x → e2.score = some y → y ≤ x)) := by
  have hsorted : (sortPrimaries (dedup docs results)).Pairwise byScoreDesc :=
    List.sorted_insertionSort byScoreDesc _
  constructor
  · refine ⟨((sortPrimaries (dedup docs results)).filter
        fun e => decide (e.title ∉ tag_set)).map linkEntry,
      ((secondaryNames (dedup docs results)).filter
        fun n => decide (n ∉ tag_set)).map graphEntry,
      by rw [suggest_links_and_tags], ?_, ?_, ?_⟩
    · rintro e he
      obtain ⟨se, _, rfl⟩ := List.mem_map.mp he
      exact ⟨rfl, rfl⟩
    · rintro e he
      obtain ⟨n, _, rfl⟩ := List.mem_map.mp he
      exact ⟨rfl, rfl⟩
    · rw [List.pairwise_map]
      refine List.Pairwise.imp ?_
        (hsorted.sublist (List.filter_sublist _))
      intro a b hab x y hx hy
      rw [Option.some.inj hx.symm, Option.some.inj hy.symm] at *
      exact hab
  · refine ⟨((sortPrimaries (dedup docs results)).filter
        fun e => decide (e.title ∈ tag_set)).map tagEntry,
      ((secondaryNames (dedup docs results)).filter
        fun n => decide (n ∈ tag_set)).map graphEntry,
      by rw [suggest_links_and_tags], ?_, ?_, ?_⟩
    · rintro e he
      obtain ⟨se, _, rfl⟩ := List.mem_map.mp he
      exact ⟨rfl, rfl⟩
    · rintro e he
      obtain ⟨n, _, rfl⟩ := List.mem_map.mp he
      exact ⟨rfl, rfl⟩
    · rw [List.pairwise_map]
      refine List.Pairwise.imp ?_
        (hsorted.sublist (List.filter_sublist _))
      intro a b hab x y hx hy
      rw [Option.some.inj hx.symm, Option.some.inj hy.symm] at *
      exact hab

theorem c5_witness :
    ∃ p q, (suggest_links_and_tags
        [⟨"A", "f", mkRat 1 2⟩, ⟨"B", "g", mkRat 3 4⟩] ∅
        [⟨"A", ["C"], []⟩]).suggested_links = p ++ q ∧
      (∀ e ∈ p, e.score.isSome = true ∧ e.source = none) ∧
      (∀ e ∈ q, e.score = none ∧ e.source = some "graph") ∧
      p.Pairwise (fun e1 e2 => ∀ x y,
        e1.score = some x → e2.score = some y → y ≤ x) :=
  (c5_output_ordering [⟨"A", "f", mkRat 1 2⟩, ⟨"B", "g", mkRat 3 4⟩] ∅
    [⟨"A", ["C"], []⟩]).1

/-! ### Claim C7 -/

theorem mem_tagReferencingNotes (docs : List Doc) (t name : String) :
    name ∈ tagReferencingNotes docs t ↔ referencesTag docs name t := by
  rw [tagReferencingNotes, referencesTag]
  simp only [List.mem_dedup, List.mem_map, List.mem_filter, decide_eq_true_eq]
  constructor
  · rintro ⟨d, ⟨hd, hne, hl⟩, rfl⟩
    exact ⟨hne, d, hd, rfl, hl⟩
  · rintro ⟨hne, d, hd, rfl, hl⟩
    exact ⟨d, ⟨hd, hne, hl⟩, rfl⟩

theorem keys_build_tag_context_subset (docs : List Doc) (ts : List String)
    (p : String × List String) (hp : p ∈ build_tag_context docs ts) :
    p.1 ∈ ts := by
  rw [build_tag_context] at hp
  obtain ⟨hp', _⟩ := List.mem_filter.mp hp
  obtain ⟨t, ht, rfl⟩ := List.mem_map.mp hp'
  exact ht

theorem lookup_build_tag_context_of_not_mem (docs : List Doc)
    (ts : List String) (t : String) (h : t ∉ ts) :
    (build_tag_context docs ts).lookup t = none := by
  rw [List.lookup_eq_none_iff]
  intro p hp
  exact bne_iff_ne.mpr
    (fun hc => h (hc ▸ keys_build_tag_context_subset docs ts p hp))

theorem sortNotes_eq_nil_iff (docs : List Doc) (t : String) :
    List.insertionSort (· ≤ ·) (tagReferencingNotes docs t) = [] ↔
      tagReferencingNotes docs t = [] := by
  constructor
  · intro hc
    have hperm := List.perm_insertionSort (· ≤ ·) (tagReferencingNotes docs t)
    rw [hc] at hperm
    exact (hperm.symm.eq_nil)
  · intro hc
    rw [hc]
    rfl

theorem lookup_build_tag_context (docs : List Doc) :
    ∀ (ts : List String) (t : String), ts.Nodup → t ∈ ts →
      (build_tag_context docs ts).lookup t =
        if tagReferencingNotes docs t = [] then none
        else some (List.insertionSort (· ≤ ·) (tagReferencingNotes docs t)) := by
  intro ts
  induction ts with
  | nil =>
    intro t _ ht
    cases ht
  | cons t0 ts ih =>
    intro t hnd ht
    rw [List.nodup_cons] at hnd
    have hb : (build_tag_context docs (t0 :: ts) =
          (t0, List.insertionSort (· ≤ ·) (tagReferencingNotes docs t0)) ::
            (build_tag_context docs ts) ∧
          tagReferencingNotes docs t0 ≠ []) ∨
        (build_tag_context docs (t0 :: ts) = build_tag_context docs ts ∧
          tagReferencingNotes docs t0 = []) := by
      by_cases hnil : tagReferencingNotes docs t0 = []
      · right
        refine ⟨?_, hnil⟩
        conv_lhs => rw [build_tag_context, List.map_cons, List.filter_cons]
        rw [if_neg (by
          simp only [decide_eq_true_eq]
          exact not_not.mpr ((sortNotes_eq_nil_iff docs t0).mpr hnil)),
          build_tag_context]
      · left
        refine ⟨?_, hnil⟩
        conv_lhs => rw [build_tag_context, List.map_cons, List.filter_cons]
        rw [if_pos (by
          simp only [decide_eq_true_eq]
          exact (sortNotes_eq_nil_iff docs t0).not.mpr hnil),
          build_tag_context]
    rcases List.mem_cons.mp ht with rfl | hts
    · rcases hb with ⟨hb, hnil⟩ | ⟨hb, hnil⟩
      · rw [hb, List.lookup_cons_self, if_neg hnil]
      · rw [hb, if_pos hnil]
        exact lookup_build_tag_context_of_not_mem docs ts t hnd.1
    · have hne : t ≠ t0 := fun hc => hnd.1 (hc ▸ hts)
      rcases hb with ⟨hb, _⟩ | ⟨hb, _⟩
      · rw [hb, List.lookup_cons]
        rw [beq_eq_false_iff_ne.mpr hne]
        exact ih t hnd.2 hts
      · rw [hb]
        exact ih t hnd.2 hts

/-- Claim C7: `build_tag_context` maps each tag of the vocabulary to
the sorted list of distinct note titles that reference it via a
wikilink or a backlink (both directions counting equally); a tag
referenced by no note is absent from the returned mapping rather than
mapped to an empty list. -/
theorem c7_tag_context (docs : List Doc) (tag_set : List String)
    (t : String) (hnd : tag_set.Nodup) (ht : t ∈ tag_set) :
    ((build_tag_context docs tag_set).lookup t = none ↔
      ∀ name, ¬ referencesTag docs name t) ∧
    (∀ l, (build_tag_context docs tag_set).lookup t = some l →
      l.Sorted (· ≤ ·) ∧ l.Nodup ∧ l ≠ [] ∧
        ∀ name, (name ∈ l ↔ referencesTag docs name t)) := by
  have hlookup := lookup_build_tag_context docs tag_set t hnd ht
  constructor
  · rw [hlookup]
    by_cases hnil : tagReferencingNotes docs t = []
    · rw [if_pos hnil]
      refine iff_of_true rfl fun name hr => ?_
      rw [← mem_tagReferencingNotes docs t name, hnil] at hr
      cases hr
    · rw [if_neg hnil]
      constructor
      · intro h
        cases h
      · intro hall
        exfalso
        cases hl : tagReferencingNotes docs t with
        | nil => exact hnil hl
        | cons a l =>
          refine hall a ?_
          rw [← mem_tagReferencingNotes docs t a, hl]
          exact List.mem_cons_self _ _
  · intro l hl
    rw [hlookup] at hl
    by_cases hnil : tagReferencingNotes docs t = []
    · rw [if_pos hnil] at hl
      cases hl
    · rw [if_neg hnil] at hl
      have hperm := List.perm_insertionSort (· ≤ ·)
        (tagReferencingNotes docs t)
      rw [← Option.some.inj hl] at *
      refine ⟨List.sorted_insertionSort _ _, ?_, ?_, ?_⟩
      · exact hperm.nodup_iff.mpr (List.nodup_dedup _)
      · exact fun hc => hnil ((sortNotes_eq_nil_iff docs t).mp hc)
      · intro name
        rw [hperm.mem_iff]
        exact mem_tagReferencingNotes docs t name

theorem c7_witness :
    (("NoteA" : String) ∈ (["NoteA"] : List String) ↔
      referencesTag [⟨"NoteA", ["tag1"], []⟩] "NoteA" "tag1") ∧
    ((build_tag_context [⟨"NoteA", ["tag1"], []⟩]
        ["tag1", "tag2"]).lookup "tag2" = none ↔
      ∀ name, ¬ referencesTag [⟨"NoteA", ["tag1"], []⟩] name "tag2") :=
  ⟨((c7_tag_context [⟨"NoteA", ["tag1"], []⟩] ["tag1", "tag2"] "tag1"
      (by decide) (by decide)).2 ["NoteA"] (by decide)).2.2.2 "NoteA",
    (c7_tag_context [⟨"NoteA", ["tag1"], []⟩] ["tag1", "tag2"] "tag2"
      (by decide) (by decide)).1⟩

/-! ### Claim C8 -/

theorem doc_metadata_none_iff (docs : List Doc) (name : String) :
    doc_metadata docs name = none ↔
      (name = "" ∨ ∀ d ∈ docs, d.note_name ≠ name) := by
  rw [doc_metadata]
  split
  · next hc =>
    constructor
    · intro h
      cases h
    · intro h
      exfalso
      obtain ⟨d, hd, hdn⟩ := List.any_eq_true.mp hc.2
      rcases h with h | h
      · exact hc.1 h
      · exact h d hd (beq_iff_eq.mp hdn)
  · next hc =>
    refine iff_of_true rfl ?_
    rcases not_and_or.mp hc with h | h
    · exact Or.inl (not_not.mp h)
    · refine Or.inr fun d hd hdn => ?_
      exact h (List.any_eq_true.mpr ⟨d, hd, beq_iff_eq.mpr hdn⟩)

theorem doc_metadata_some_mem (docs : List Doc) (name x : String)
    (wl bl : List String) (h : doc_metadata docs name = some (wl, bl)) :
    (x ∈ wl ↔ ∃ d ∈ docs, d.note_name = name ∧ x ∈ d.wikilinks) ∧
    (x ∈ bl ↔ ∃ d ∈ docs, d.note_name = name ∧ x ∈ d.backlinks) := by
  rw [doc_metadata] at h
  split at h
  · obtain ⟨h1, h2⟩ := Prod.mk.injEq _ _ _ _ ▸ Option.some.inj h
    constructor
    · rw [← h1]
      simp only [List.mem_dedup, List.mem_flatten, List.mem_map,
        List.mem_filter, beq_iff_eq]
      constructor
      · rintro ⟨l, ⟨d, ⟨hd, hdn⟩, rfl⟩, hx⟩
        exact ⟨d, hd, hdn, hx⟩
      · rintro ⟨d, hd, hdn, hx⟩
        exact ⟨d.wikilinks, ⟨d, ⟨hd, hdn⟩, rfl⟩, hx⟩
    · rw [← h2]
      simp only [List.mem_dedup, List.mem_flatten, List.mem_map,
        List.mem_filter, beq_iff_eq]
      constructor
      · rintro ⟨l, ⟨d, ⟨hd, hdn⟩, rfl⟩, hx⟩
        exact ⟨d, hd, hdn, hx⟩
      · rintro ⟨d, hd, hdn, hx⟩
        exact ⟨d.backlinks, ⟨d, ⟨hd, hdn⟩, rfl⟩, hx⟩
  · cases h

/-- Claim C8: the per-note metadata built from document chunks assigns
to each nonempty note title the set union of wikilinks (and of
backlinks) over all chunks sharing that title; chunks with an empty
title contribute no entry; and the per-title sets are unchanged under
any reordering or repetition of the chunk sequence (two chunk lists
with the same members produce the same metadata, compared as sets). -/
theorem c8_doc_metadata_union (docs1 docs2 : List Doc) (name x : String) :
    (doc_metadata docs1 "" = none) ∧
    (doc_metadata docs1 name = none ↔
      (name = "" ∨ ∀ d ∈ docs1, d.note_name ≠ name)) ∧
    (∀ wl bl, doc_metadata docs1 name = some (wl, bl) →
      (x ∈ wl ↔ ∃ d ∈ docs1, d.note_name = name ∧ x ∈ d.wikilinks) ∧
      (x ∈ bl ↔ ∃ d ∈ docs1, d.note_name = name ∧ x ∈ d.backlinks)) ∧
    (docs1 ⊆ docs2 → docs2 ⊆ docs1 →
      Option.map (fun p => (p.1.toFinset, p.2.toFinset))
          (doc_metadata docs1 name)
        = Option.map (fun p => (p.1.toFinset, p.2.toFinset))
          (doc_metadata docs2 name)) := by
  refine ⟨?_, doc_metadata_none_iff docs1 name,
    fun wl bl h => doc_metadata_some_mem docs1 name x wl bl h, ?_⟩
  · rw [doc_metadata_none_iff]
    exact Or.inl rfl
  · intro h12 h21
    have hmemiff : ∀ d, d ∈ docs1 ↔ d ∈ docs2 :=
      fun d => ⟨fun hd => h12 hd, fun hd => h21 hd⟩
    cases h1 : doc_metadata docs1 name with
    | none =>
      cases h2 : doc_metadata docs2 name with
      | none => rfl
      | some v =>
        exfalso
        rcases (doc_metadata_none_iff docs1 name).mp h1 with hn | hn
        · rw [(doc_metadata_none_iff docs2 name).mpr (Or.inl hn)] at h2
          cases h2
        · rw [(doc_metadata_none_iff docs2 name).mpr (Or.inr fun d hd =>
            hn d ((hmemiff d).mpr hd))] at h2
          cases h2
    | some v =>
      cases h2 : doc_metadata docs2 name with
      | none =>
        exfalso
        rcases (doc_metadata_none_iff docs2 name).mp h2 with hn | hn
        · rw [(doc_metadata_none_iff docs1 name).mpr (Or.inl hn)] at h1
          cases h1
        · rw [(doc_metadata_none_iff docs1 name).mpr (Or.inr fun d hd =>
            hn d ((hmemiff d).mp hd))] at h1
          cases h1
      | some w =>
        obtain ⟨wl1, bl1⟩ := v
        obtain ⟨wl2, bl2⟩ := w
        have hc1 := doc_metadata_some_mem docs1 name
        have hc2 := doc_metadata_some_mem docs2 name
        show some _ = some _
        congr 1
        refine Prod.ext ?_ ?_
        · refine Finset.ext fun y => ?_
          rw [List.mem_toFinset, List.mem_toFinset,
            (hc1 y wl1 bl1 h1).1, (hc2 y wl2 bl2 h2).1]
          constructor
          · rintro ⟨d, hd, hdn, hy⟩
            exact ⟨d, (hmemiff d).mp hd, hdn, hy⟩
          · rintro ⟨d, hd, hdn, hy⟩
            exact ⟨d, (hmemiff d).mpr hd, hdn, hy⟩
        · refine Finset.ext fun y => ?_
          rw [List.mem_toFinset, List.mem_toFinset,
            (hc1 y wl1 bl1 h1).2, (hc2 y wl2 bl2 h2).2]
          constructor
          · rintro ⟨d, hd, hdn, hy⟩
            exact ⟨d, (hmemiff d).mp hd, hdn, hy⟩
          · rintro ⟨d, hd, hdn, hy⟩
            exact ⟨d, (hmemiff d).mpr hd, hdn, hy⟩

theorem c8_witness :
    Option.map (fun p => (p.1.toFinset, p.2.toFinset))
        (doc_metadata [⟨"A", ["x"], ["y"]⟩, ⟨"A", ["z"], []⟩] "A")
      = Option.map (fun p => (p.1.toFinset, p.2.toFinset))
        (doc_metadata [⟨"A", ["z"], []⟩, ⟨"A", ["x"], ["y"]⟩,
          ⟨"A", ["z"], []⟩] "A") :=
  (c8_doc_metadata_union [⟨"A", ["x"], ["y"]⟩, ⟨"A", ["z"], []⟩]
    [⟨"A", ["z"], []⟩, ⟨"A", ["x"], ["y"]⟩, ⟨"A", ["z"], []⟩] "A"
    "x").2.2.2 (by decide) (by decide)

/-! ### Claim C1 -/

theorem countP_filter_split {α : Type} (p q : α → Bool) (l : List α) :
    List.countP p (l.filter q) +
        List.countP p (l.filter fun a => !(q a)) = List.countP p l := by
  induction l with
  | nil => rfl
  | cons a l ih =>
    cases hq : q a <;> cases hp : p a <;>
      simp [List.filter_cons, List.countP_cons, hq, hp] <;> omega

theorem countP_beq_eq_one_of_nodup (l : List String) (t : String)
    (hnd : l.Nodup) (htm : t ∈ l) : l.countP (· == t) = 1 := by
  induction l with
  | nil => cases htm
  | cons a l ih =>
    rw [List.countP_cons]
    rw [List.nodup_cons] at hnd
    rcases List.mem_cons.mp htm with rfl | hm
    · have h0 : l.countP (· == t) = 0 := by
        rw [List.countP_eq_zero]
        intro b hb
        simp only [beq_iff_eq]
        exact fun hc => hnd.1 (hc ▸ hb)
      simp [h0]
    · have ha : (a == t) = false :=
        beq_eq_false_iff_ne.mpr (fun hc => hnd.1 (hc ▸ hm))
      rw [ih hnd.2 hm, ha]
      simp

theorem key_ne_empty_of_mem_dedup (docs : List Doc) (results : List Node)
    (p : String × SeenEntry) (hp : p ∈ dedup docs results) : p.1 ≠ "" := by
  intro hc
  obtain ⟨t, e⟩ := p
  have hc2 : t = "" := hc
  have hlk := (mem_dedup_iff_lookup docs results t e).mp hp
  rw [hc2] at hlk
  rw [(lookup_dedup_none_iff docs results "").mpr (Or.inl rfl)] at hlk
  cases hlk

theorem lookup_dedup_score (docs : List Doc) (results : List Node)
    (t : String) (e : SeenEntry) (ht : t ≠ "")
    (h : (dedup docs results).lookup t = some e) (s : ℚ) (ss : List ℚ)
    (hs : scoresOf t results = s :: ss) :
    e.score = round4 (ss.foldl max s) := by
  obtain ⟨hub, n, hn, hnt, rfl⟩ := lookup_dedup_some docs results t e ht h
  have hnscore : n.score ∈ scoresOf t results :=
    (mem_scoresOf_iff t results n.score).mpr ⟨n, hn, hnt, rfl⟩
  have hmax_mem : ss.foldl max s ∈ scoresOf t results := by
    rw [hs]
    rcases foldl_max_mem ss s with hm | hm
    · rw [hm]
      exact List.mem_cons_self _ _
    · exact List.mem_cons_of_mem _ hm
  obtain ⟨m, hmm, hmt, hms⟩ :=
    (mem_scoresOf_iff t results (ss.foldl max s)).mp hmax_mem
  apply le_antisymm
  · show round4 n.score ≤ round4 (ss.foldl max s)
    apply round4_mono
    have hmem : n.score ∈ s :: ss := hs ▸ hnscore
    rcases List.mem_cons.mp hmem with h' | h'
    · rw [h']
      exact (le_foldl_max ss s).1
    · exact (le_foldl_max ss s).2 _ h'
  · have := hub m hmm hmt
    rw [hms] at this
    exact this

theorem mem_keys_dedup (docs : List Doc) (results : List Node)
    (t : String) (ht : t ≠ "") (n0 : Node) (hn0 : n0 ∈ results)
    (hn0t : n0.note_name = t) : t ∈ (dedup docs results).map Prod.fst := by
  obtain ⟨e, he⟩ := lookup_dedup_exists docs results n0 hn0
    (by rw [hn0t]; exact ht)
  rw [hn0t] at he
  exact List.mem_map.mpr ⟨(t, e), lookup_mem _ t e he, rfl⟩

/-- Claim C1 (amended): for every hit sequence in which a nonempty
note title occurs with raw scores `s :: ss`, the output of
`suggest_links_and_tags` contains exactly one primary (score-carrying)
candidate for that title, and its score equals `max(s :: ss)` rounded
to 4 decimal places (NOT the raw maximum); when two hits for the same
title carry equal raw scores, the first-seen hit's entry is kept
exactly when rounding does not decrease the score — when
`round4 s < s`, the later equal-scoring hit replaces the earlier entry
(third conjunct, stated on the dedup table for a two-hit sequence). -/
theorem c1_dedup_best_score (results : List Node) (tag_set : Finset String)
    (docs : List Doc) (t : String) (s : ℚ) (ss : List ℚ)
    (ht : t ≠ "") (hs : scoresOf t results = s :: ss) :
    (((suggest_links_and_tags results tag_set docs).suggested_links ++
        (suggest_links_and_tags results tag_set docs).suggested_tags).countP
          (fun e => e.title == t && e.score.isSome) = 1) ∧
    (∀ e ∈ (suggest_links_and_tags results tag_set docs).suggested_links ++
        (suggest_links_and_tags results tag_set docs).suggested_tags,
      e.title = t → e.score = some (round4 (ss.foldl max s))) ∧
    (∀ (q : ℚ) (f1 f2 : String),
      dedup docs [⟨t, f1, q⟩, ⟨t, f2, q⟩]
        = [(t, mkSeenEntry docs (if round4 q < q then (⟨t, f2, q⟩ : Node)
            else ⟨t, f1, q⟩))]) := by
  have htk : t ∈ (dedup docs results).map Prod.fst := by
    have hsmem : s ∈ scoresOf t results := by
      rw [hs]
      exact List.mem_cons_self _ _
    obtain ⟨n0, hn0, hn0t, _⟩ := (mem_scoresOf_iff t results s).mp hsmem
    exact mem_keys_dedup docs results t ht n0 hn0 hn0t
  refine ⟨?_, ?_, ?_⟩
  · rw [suggest_links_and_tags]
    simp only [List.countP_append, List.countP_map]
    have hgraph : ∀ ls : List String,
        List.countP ((fun e => e.title == t && e.score.isSome) ∘ graphEntry)
          ls = 0 := by
      intro ls
      rw [List.countP_eq_zero]
      intro a _
      simp [graphEntry, Function.comp]
    rw [hgraph, hgraph]
    have hlink : List.countP
        ((fun e => e.title == t && e.score.isSome) ∘ linkEntry)
          ((sortPrimaries (dedup docs results)).filter
            fun e => decide (e.title ∉ tag_set))
        = List.countP (fun se => se.title == t)
          ((sortPrimaries (dedup docs results)).filter
            fun e => decide (e.title ∉ tag_set)) := by
      apply List.countP_congr
      intro se _
      simp [linkEntry, Function.comp]
    have htag : List.countP
        ((fun e => e.title == t && e.score.isSome) ∘ tagEntry)
          ((sortPrimaries (dedup docs results)).filter
            fun e => decide (e.title ∈ tag_set))
        = List.countP (fun se => se.title == t)
          ((sortPrimaries (dedup docs results)).filter
            fun e => decide (e.title ∈ tag_set)) := by
      apply List.countP_congr
      intro se _
      simp [tagEntry, Function.comp]
    rw [hlink, htag]
    have hsplit : List.countP (fun se : SeenEntry => se.title == t)
        ((sortPrimaries (dedup docs results)).filter
          fun e => decide (e.title ∈ tag_set)) +
        List.countP (fun se : SeenEntry => se.title == t)
        ((sortPrimaries (dedup docs results)).filter
          fun e => !(decide (e.title ∈ tag_set)))
        = List.countP (fun se : SeenEntry => se.title == t)
          (sortPrimaries (dedup docs results)) :=
      countP_filter_split _ _ _
    have hnotq : (fun e : SeenEntry => decide (e.title ∉ tag_set))
        = fun e => !(decide (e.title ∈ tag_set)) := by
      funext e
      rw [decide_not]
    rw [hnotq]
    have hprim : List.countP (fun se : SeenEntry => se.title == t)
        (sortPrimaries (dedup docs results))
        = List.countP (fun p : String × SeenEntry => p.1 == t)
          (dedup docs results) := by
      rw [sortPrimaries,
        (List.perm_insertionSort byScoreDesc _).countP_eq, List.countP_map]
      apply List.countP_congr
      intro p hp
      rw [Function.comp]
      rw [title_dedup docs results p hp]
    have hkeys : List.countP (fun p : String × SeenEntry => p.1 == t)
        (dedup docs results)
        = List.countP (· == t) ((dedup docs results).map Prod.fst) := by
      rw [List.countP_map]
      rfl
    have hone : List.countP (· == t) ((dedup docs results).map Prod.fst) = 1 :=
      countP_beq_eq_one_of_nodup _ t (nodupKeys_dedup docs results) htk
    rw [Nat.add_zero, Nat.add_zero, Nat.add_comm, hsplit, hprim, hkeys]
    exact hone
  · intro e he het
    rcases List.mem_append.mp he with h | h
    · rcases (mem_suggest_links_iff results tag_set docs e).mp h with
        ⟨se, hse, _, rfl⟩ | ⟨n, hn, _, rfl⟩
      · have hset : se.title = t := het
        obtain ⟨p, hp, hpe⟩ := (mem_sortPrimaries _ se).mp hse
        have hpt : p = (t, se) := by
          have h1 : p.1 = t := by
            rw [← title_dedup docs results p hp, hpe, hset]
          obtain ⟨a, b⟩ := p
          rw [Prod.mk.injEq]
          exact ⟨h1, hpe⟩
        have hlk : (dedup docs results).lookup t = some se :=
          (mem_dedup_iff_lookup docs results t se).mp (hpt ▸ hp)
        have hsc := lookup_dedup_score docs results t se ht hlk s ss hs
        show some se.score = _
        rw [hsc]
      · exfalso
        have hnt : n = t := het
        have hnk := ((mem_secondaryNames_iff _ _).mp hn).2
        rw [hnt] at hnk
        exact hnk htk
    · rcases (mem_suggest_tags_iff results tag_set docs e).mp h with
        ⟨se, hse, _, rfl⟩ | ⟨n, hn, _, rfl⟩
      · have hset : se.title = t := het
        obtain ⟨p, hp, hpe⟩ := (mem_sortPrimaries _ se).mp hse
        have hpt : p = (t, se) := by
          have h1 : p.1 = t := by
            rw [← title_dedup docs results p hp, hpe, hset]
          obtain ⟨a, b⟩ := p
          rw [Prod.mk.injEq]
          exact ⟨h1, hpe⟩
        have hlk : (dedup docs results).lookup t = some se :=
          (mem_dedup_iff_lookup docs results t se).mp (hpt ▸ hp)
        have hsc := lookup_dedup_score docs results t se ht hlk s ss hs
        show some se.score = _
        rw [hsc]
      · exfalso
        have hnt : n = t := het
        have hnk := ((mem_secondaryNames_iff _ _).mp hn).2
        rw [hnt] at hnk
        exact hnk htk
  · intro q f1 f2
    have h1 : dedupStep docs [] (⟨t, f1, q⟩ : Node)
        = [(t, mkSeenEntry docs ⟨t, f1, q⟩)] := by
      rw [dedupStep_store docs [] _ ht rfl, updateSeen]
      rw [if_neg (by simp)]
      rfl
    rw [dedup, List.foldl_cons, List.foldl_cons, List.foldl_nil, h1]
    by_cases hlt : round4 q < q
    · rw [if_pos hlt]
      have hk : keepNew [(t, mkSeenEntry docs ⟨t, f1, q⟩)]
          (⟨t, f2, q⟩ : Node) = true := by
        rw [keepNew]
        rw [List.lookup_cons_self]
        exact decide_eq_true hlt
      rw [dedupStep_store docs _ _ ht hk, updateSeen]
      rw [if_pos (by simp)]
      simp
    · rw [if_neg hlt]
      have hk : keepNew [(t, mkSeenEntry docs ⟨t, f1, q⟩)]
          (⟨t, f2, q⟩ : Node) = false := by
        rw [keepNew]
        rw [List.lookup_cons_self]
        exact decide_eq_false hlt
      rw [dedupStep_skip docs _ _ (Or.inr hk)]

/-- Claim C1 as stated is false on the code: two hits for title "A"
with EQUAL raw scores 1/25000 = 0.00004 (which rounds down to 0.0).
The second-seen hit's entry is kept (folder "f2"), because the raw
score 0.00004 compares strictly greater than the stored rounded score
0.0 — the claim says ties keep the first-seen entry; and the reported
score is 0, which differs from max(s₁, s₂) = 0.00004 — the claim says
the score equals the raw maximum. -/
theorem c1_counterexample :
    ((suggest_links_and_tags
        [⟨"A", "f1", mkRat 1 25000⟩, ⟨"A", "f2", mkRat 1 25000⟩] ∅
        []).suggested_links.map (fun e => (e.title, e.score, e.folder))
      = [("A", some 0, some "f2")]) ∧
    ((0 : ℚ) ≠ mkRat 1 25000) := by
  decide

theorem c1_witness :
    ((suggest_links_and_tags [⟨"A", "f", 2⟩] ∅ []).suggested_links ++
        (suggest_links_and_tags [⟨"A", "f", 2⟩] ∅ []).suggested_tags).countP
          (fun e => e.title == "A" && e.score.isSome) = 1 :=
  (c1_dedup_best_score [⟨"A", "f", 2⟩] ∅ [] "A" 2 [] (by decide)
    (by decide)).1

/-! ### Claim C10 -/

/-- Claim C10: every score reported in the output of
`suggest_links_and_tags` equals some hit's raw score rounded to 4
decimal places; and during best-score deduplication each subsequent
raw hit score is compared against the previously stored ROUNDED value
(second conjunct: for a two-hit sequence on one title, the second hit
replaces the first exactly when its raw score exceeds `round4` of the
first's, not the first's raw score). -/
theorem c10_rounded_scores (results : List Node) (tag_set : Finset String)
    (docs : List Doc) :
    (∀ e ∈ (suggest_links_and_tags results tag_set docs).suggested_links ++
        (suggest_links_and_tags results tag_set docs).suggested_tags,
      ∀ q, e.score = some q →
        ∃ n ∈ results, n.note_name = e.title ∧ q = round4 n.score) ∧
    (∀ (t f1 f2 : String) (s1 s2 : ℚ), t ≠ "" →
      dedup docs [⟨t, f1, s1⟩, ⟨t, f2, s2⟩]
        = [(t, mkSeenEntry docs (if round4 s1 < s2 then (⟨t, f2, s2⟩ : Node)
            else ⟨t, f1, s1⟩))]) := by
  constructor
  · intro e he q hq
    have hprim : ∀ se : SeenEntry, se ∈ sortPrimaries (dedup docs results) →
        se.score = q →
        ∃ n ∈ results, n.note_name = se.title ∧ q = round4 n.score := by
      intro se hse hq'
      obtain ⟨p, hp, hpe⟩ := (mem_sortPrimaries _ se).mp hse
      have hpt : p = (se.title, se) := by
        have h1 : p.1 = se.title := by
          rw [← title_dedup docs results p hp, hpe]
        obtain ⟨a, b⟩ := p
        rw [Prod.mk.injEq]
        exact ⟨h1, hpe⟩
      have htne : se.title ≠ "" := by
        have := key_ne_empty_of_mem_dedup docs results p hp
        rw [hpt] at this
        exact this
      have hlk : (dedup docs results).lookup se.title = some se :=
        (mem_dedup_iff_lookup docs results se.title se).mp (hpt ▸ hp)
      obtain ⟨_, n, hn, hnt, hne⟩ :=
        lookup_dedup_some docs results se.title se htne hlk
      refine ⟨n, hn, hnt, ?_⟩
      rw [← hq', hne]
      rfl
    rcases List.mem_append.mp he with h | h
    · rcases (mem_suggest_links_iff results tag_set docs e).mp h with
        ⟨se, hse, _, rfl⟩ | ⟨n, _, _, rfl⟩
      · exact hprim se hse (Option.some.inj hq)
      · cases hq
    · rcases (mem_suggest_tags_iff results tag_set docs e).mp h with
        ⟨se, hse, _, rfl⟩ | ⟨n, _, _, rfl⟩
      · exact hprim se hse (Option.some.inj hq)
      · cases hq
  · intro t f1 f2 s1 s2 ht
    have h1 : dedupStep docs [] (⟨t, f1, s1⟩ : Node)
        = [(t, mkSeenEntry docs ⟨t, f1, s1⟩)] := by
      rw [dedupStep_store docs [] _ ht rfl, updateSeen]
      rw [if_neg (by simp)]
      rfl
    rw [dedup, List.foldl_cons, List.foldl_cons, List.foldl_nil, h1]
    by_cases hlt : round4 s1 < s2
    · rw [if_pos hlt]
      have hk : keepNew [(t, mkSeenEntry docs ⟨t, f1, s1⟩)]
          (⟨t, f2, s2⟩ : Node) = true := by
        rw [keepNew]
        rw [List.lookup_cons_self]
        exact decide_eq_true hlt
      rw [dedupStep_store docs _ _ ht hk, updateSeen]
      rw [if_pos (by simp)]
      simp
    · rw [if_neg hlt]
      have hk : keepNew [(t, mkSeenEntry docs ⟨t, f1, s1⟩)]
          (⟨t, f2, s2⟩ : Node) = false := by
        rw [keepNew]
        rw [List.lookup_cons_self]
        exact decide_eq_false hlt
      rw [dedupStep_skip docs _ _ (Or.inr hk)]

theorem c10_witness :
    dedup [] [⟨"A", "f1", 1⟩, ⟨"A", "f2", 2⟩]
      = [("A", mkSeenEntry []
          (if round4 1 < 2 then (⟨"A", "f2", 2⟩ : Node)
           else ⟨"A", "f1", 1⟩))] :=
  (c10_rounded_scores [] ∅ []).2 "A" "f1" "f2" 1 2 (by decide)

end ObsRag
